import Mathlib

/-!
Verification of the archive-content resolution engine of a mod-installation
utility (source: `mods.py`).

The Python source is shallowly embedded: archive member lists are
`List (String × Bool)` (path, is-directory) pairs, Python exceptions become an
explicit error type carried in `Except`, and all filesystem / archive-library
effects are abstracted as oracle parameters that the embedded functions
consume.  All string primitives are re-implemented over `List Char` so that
every definition is executable and kernel-computable; they model CPython
semantics for the ASCII strings this program manipulates.  Paths are modelled
with POSIX separators (`/`), which is the form the program itself normalises
archive member names to.
-/

/-! ## String primitives (CPython semantics on ASCII strings) -/

/-- ASCII lower-casing of one character, as `str.lower` acts on ASCII. -/
def asciiLower (c : Char) : Char :=
  if 65 ≤ c.toNat ∧ c.toNat ≤ 90 then Char.ofNat (c.toNat + 32) else c

/-- Python `str.lower()` (ASCII fragment). -/
def strLower (s : String) : String := (s.toList.map asciiLower).asString

/-- Split a character list at every occurrence of `c`, Python `str.split(c)`:
the result is always non-empty and empty pieces are kept. -/
def splitOnChar (c : Char) : List Char → List (List Char)
  | [] => [[]]
  | a :: rest =>
    if a = c then [] :: splitOnChar c rest
    else
      match splitOnChar c rest with
      | [] => [[a]]
      | h :: t => (a :: h) :: t

/-- Python `s.split('/')`. -/
def strSplitSlash (s : String) : List String :=
  (splitOnChar '/' s.toList).map List.asString

/-- Python `s.endswith(suf)`. -/
def strEndsWith (s suf : String) : Bool := List.isSuffixOf suf.toList s.toList

/-- Python `s.startswith(pre)`. -/
def strStartsWith (s t : String) : Bool := List.isPrefixOf t.toList s.toList

/-- Python `s.replace('\\', '/')` (single-character replacement). -/
def backToSlash (s : String) : String :=
  (s.toList.map (fun c => if c = '\\' then '/' else c)).asString

/-- Python `s.strip('/')`: drop leading and trailing `'/'` characters. -/
def stripSlashes (s : String) : String :=
  (((s.toList.dropWhile (fun c => c = '/')).reverse.dropWhile
      (fun c => c = '/')).reverse).asString

/-- The whitespace characters stripped by Python `str.strip()` (ASCII part). -/
def pyWhitespace : List Char := [' ', '\t', '\n', '\r', '\x0b', '\x0c']

/-- Whether `c` is (ASCII) whitespace for `str.strip()`. -/
def isPyWs (c : Char) : Bool := pyWhitespace.contains c

/-- `str.strip()` on a character list. -/
def stripWsChars (l : List Char) : List Char :=
  ((l.dropWhile isPyWs).reverse.dropWhile isPyWs).reverse

/-- Python `s.strip()` (ASCII whitespace). -/
def pyStrip (s : String) : String := (stripWsChars s.toList).asString

/-- Whether the character `c` occurs in the string `s`. -/
def strHasChar (c : Char) (s : String) : Bool := s.toList.contains c

/-- Join a list of strings with a separator, Python `sep.join(l)`. -/
def strJoinSep (sep : String) : List String → String
  | [] => ""
  | [x] => x
  | x :: y :: t => x ++ sep ++ strJoinSep sep (y :: t)

/-- Concatenate a list of strings. -/
def strConcat : List String → String
  | [] => ""
  | x :: t => x ++ strConcat t

/-! ## A model of `pathlib.PurePosixPath`

`mods.py` manipulates archive member names (always `/`-separated after its own
normalisation) through `pathlib.Path`.  `pyPathComps` are the `parts` of a
path: splitting on `/` drops empty components and `'.'` components.  The model
covers relative and `/`-rooted paths, which is the whole domain of archive
member names. -/

/-- `PurePosixPath(s).parts`, without the root marker. -/
def pyPathComps (s : String) : List String :=
  (strSplitSlash s).filter (fun c => !(c = "" || c = "."))

/-- Whether the path is absolute (leading `/`). -/
def pyIsAbs (s : String) : Bool := strStartsWith s "/"

/-- Rebuild the string form of a path from its root flag and components,
`PurePosixPath.as_posix()`. -/
def pyAsPosix (ab : Bool) (comps : List String) : String :=
  if ab then "/" ++ strJoinSep "/" comps
  else if comps.isEmpty then "." else strJoinSep "/" comps

/-- `PurePosixPath(s).name`: the final component, `""` if there is none. -/
def pyName (s : String) : String := (pyPathComps s).getLastD ""

/-- Index of the last occurrence of `c` in `l`, Python `str.rfind`. -/
def lastIdxOf (c : Char) (l : List Char) : Option Nat :=
  match l.reverse.findIdx? (fun a => a = c) with
  | some j => some (l.length - 1 - j)
  | none => none

/-- `PurePath.suffix` computed from a file name `n` (no separators):
the part of `n` from its last dot on, provided that dot is neither the first
nor the last character; otherwise `""`. -/
def pySuffixOfName (n : String) : String :=
  match lastIdxOf '.' n.toList with
  | some i => if 0 < i ∧ i + 1 < n.toList.length then (n.toList.drop i).asString else ""
  | none => ""

/-- `PurePath.stem` computed from a file name `n`. -/
def pyStemOfName (n : String) : String :=
  match lastIdxOf '.' n.toList with
  | some i => if 0 < i ∧ i + 1 < n.toList.length then (n.toList.take i).asString else n
  | none => n

/-- `Path(s).suffix`. -/
def pySuffix (s : String) : String := pySuffixOfName (pyName s)

/-- `Path(s).stem`. -/
def pyStem (s : String) : String := pyStemOfName (pyName s)

/-- `Path(t) / m` rendered with `as_posix()`: joining resets on an absolute
right operand, and the joined component list is re-filtered exactly as
`PurePosixPath` construction does. -/
def pyJoin (t m : String) : String :=
  if pyIsAbs m then pyAsPosix true (pyPathComps m)
  else pyAsPosix (pyIsAbs t) (pyPathComps t ++ pyPathComps m)

/-! ## Constants of `mods.py` -/

/-- `PAK_EXTENSIONS = ('.pak', '.ucas', '.utoc')`. -/
def PAK_EXTENSIONS : List String := [".pak", ".ucas", ".utoc"]

/-- `IGNORE_ITEMS`: names ignored when detecting a single-folder structure. -/
def IGNORE_ITEMS : List String :=
  [".ds_store", "__macosx", ".git", ".gitignore", "thumbs.db"]

/-- `DEFAULT_PLUGINS`: the default, non-reorderable plugins (already stored
lower-case in the source). -/
def DEFAULT_PLUGINS : List String :=
  ["oblivion.esm", "dlcbattlehorncastle.esp", "dlcfrostcrag.esp",
   "dlchorsearmor.esp", "dlcmehrunesrazor.esp", "dlcorrery.esp",
   "dlcshiveringisles.esp", "dlcspelltomes.esp", "dlcthievesden.esp",
   "dlcvilelair.esp", "knights.esp", "altarespmain.esp", "altardeluxe.esp",
   "altaresplocal.esp"]

/-- Whether the lower-cased string ends in a "relevant" extension:
`.endswith(('.esp',) + PAK_EXTENSIONS)` in `_detect_single_folder_prefix`. -/
def relevantExtLower (s : String) : Bool :=
  strEndsWith s ".esp" || strEndsWith s ".pak" || strEndsWith s ".ucas" ||
    strEndsWith s ".utoc"

/-- Whether the lower-cased path ends in a package-member extension:
`lower_path.endswith(PAK_EXTENSIONS)` in `find_pak_sets_in_archive`. -/
def pakExtLower (s : String) : Bool :=
  strEndsWith s ".pak" || strEndsWith s ".ucas" || strEndsWith s ".utoc"

/-! ## Layout Normalizer: `_detect_single_folder_prefix` -/

/-- `path_str.strip('/').split('/')` as computed by the detector. -/
def pathParts (p : String) : List String := strSplitSlash (stripSlashes p)

/-- The first path segment of an entry (Python `path_parts[0]`),
`""` for an entry whose stripped path is empty. -/
def firstSeg (p : String) : String := (pathParts p).headD ""

/-- Python-set insertion modelled on a duplicate-free list. -/
def insertNew (ds : List String) (d : String) : List String :=
  if ds.contains d then ds else ds ++ [d]

/-- One loop iteration of `_detect_single_folder_prefix`: the state is the set
of top-level directory names collected so far together with the
`has_relevant_files_at_root` flag. -/
def detectStep (st : List String × Bool) (e : String × Bool) :
    List String × Bool :=
  match pathParts e.1 with
  | [] => st
  | f :: rest =>
    if IGNORE_ITEMS.contains (strLower f) then st
    else if rest.isEmpty then
      if e.2 then (insertNew st.1 f, st.2)
      else if relevantExtLower (strLower f) then (st.1, true)
      else st
    else (insertNew st.1 f, st.2)

/-- The `all_inside` generator of `_detect_single_folder_prefix`: every entry
with a non-empty stripped path and a non-ignorable first segment has first
segment `d`. -/
def allInside (ms : List (String × Bool)) (d : String) : Bool :=
  ms.all (fun e =>
    if stripSlashes e.1 = "" then true
    else if IGNORE_ITEMS.contains (strLower (firstSeg e.1)) then true
    else firstSeg e.1 = d)

/-- Embedding of `_detect_single_folder_prefix(member_list)`. -/
def detectSingleFolder (ms : List (String × Bool)) : Option String :=
  let st := ms.foldl detectStep ([], false)
  let valid := st.1.filter (fun d => !(IGNORE_ITEMS.contains (strLower d)))
  match valid, st.2 with
  | [d], false => if allInside ms d then some (d ++ "/") else none
  | _, _ => none

/-! ## Content Classifier -/

/-- The `if prefix and not path_str.startswith(prefix): continue` gate; note
Python truthiness: an empty detected string would not restrict anything. -/
def preBlocks : Option String → String → Bool
  | none, _ => false
  | some s, p => if s = "" then false else !(strStartsWith p s)

/-- The loop of `find_esps_in_archive` over an already-listed member list. -/
def find_esps_members (ms : List (String × Bool)) : List String :=
  let pre := detectSingleFolder ms
  ms.foldl
    (fun acc e =>
      if e.2 then acc
      else if preBlocks pre e.1 then acc
      else if strEndsWith (strLower e.1) ".esp" then acc ++ [e.1]
      else acc)
    []

/-- A (possibly partial) package triple: the values of one
`found_bases[base_key]` dictionary of `find_pak_sets_in_archive`. -/
structure PakSet where
  pak : Option String
  ucas : Option String
  utoc : Option String
deriving DecidableEq, Repr

/-- The fresh `{'pak': None, 'ucas': None, 'utoc': None}` value. -/
def emptyPakSet : PakSet := ⟨none, none, none⟩

/-- Python truthiness of a stored member (`None` and `""` are falsy). -/
def optTruthy : Option String → Bool
  | none => false
  | some s => s ≠ ""

/-- `files['pak'] and files['ucas'] and files['utoc']`. -/
def pakSetComplete (ps : PakSet) : Bool :=
  optTruthy ps.pak && optTruthy ps.ucas && optTruthy ps.utoc

/-- `base_key = (path_obj.parent / path_obj.stem).as_posix().lower()`. -/
def pakBaseKey (p : String) : String :=
  strLower (pyAsPosix (pyIsAbs p)
    ((pyPathComps p).dropLast ++
      (if pyStem p = "" || pyStem p = "." then [] else [pyStem p])))

/-- `ext = path_obj.suffix.lower()`. -/
def pakExtOf (p : String) : String := strLower (pySuffix p)

/-- The per-extension assignment into a partial triple. -/
def assignExt (ext p : String) (ps : PakSet) : PakSet :=
  if ext = ".pak" then ⟨some p, ps.ucas, ps.utoc⟩
  else if ext = ".ucas" then ⟨ps.pak, some p, ps.utoc⟩
  else if ext = ".utoc" then ⟨ps.pak, ps.ucas, some p⟩
  else ps

/-- Whether an assoc list already carries the key. -/
def hasKey (bases : List (String × PakSet)) (k : String) : Bool :=
  bases.any (fun kv => kv.1 = k)

/-- The body of the `find_pak_sets_in_archive` loop for a relevant entry:
`found_bases` is an insertion-ordered dictionary, modelled as an association
list whose keys are unique. -/
def pakRecord (bases : List (String × PakSet)) (p : String) :
    List (String × PakSet) :=
  let k := pakBaseKey p
  let based := if hasKey bases k then bases else bases ++ [(k, emptyPakSet)]
  based.map (fun kv => if kv.1 = k then (kv.1, assignExt (pakExtOf p) p kv.2) else kv)

/-- Whether the entry reaches the recording body of the loop: not a directory,
not filtered out by a detected single-folder name, and its lower-cased path
ends with a package-member extension. -/
def pakRelevant (pre : Option String) (e : String × Bool) : Bool :=
  !e.2 && !(preBlocks pre e.1) && pakExtLower (strLower e.1)

/-- One loop iteration of `find_pak_sets_in_archive`. -/
def pakStep (pre : Option String) (bases : List (String × PakSet))
    (e : String × Bool) : List (String × PakSet) :=
  if pakRelevant pre e then pakRecord bases e.1 else bases

/-- The member-list part of `find_pak_sets_in_archive`: build `found_bases`
over all members, then keep the fully-populated triples in key
insertion order. -/
def find_pak_sets_members (ms : List (String × Bool)) : List PakSet :=
  let pre := detectSingleFolder ms
  ((ms.foldl (pakStep pre) []).filter (fun kv => pakSetComplete kv.2)).map
    (fun kv => kv.2)

/-! ## Archive Reader: `_get_archive_member_list`

Python exceptions are embedded as an explicit error value.  The spec's
taxonomy maps onto them as raised by the source: `ArchiveNotFound` is the
re-raised `FileNotFoundError`, `CorruptArchive` and `UnsupportedFormat` are
the wrapped `ValueError`s (an unsupported extension always yields the message
suffix `Unsupported/unavailable type: <ext>`), and `UnexpectedReadError` is a
`RuntimeError`.  The archive library and filesystem are abstracted as an
oracle `fs` giving the outcome of opening and listing one archive; the
embedded function performs the source's dispatch, wrapping and path
normalisation around that oracle.

One CPython subtlety is modelled faithfully: when an optional library failed
to import (`RAR_SUPPORT`/`SEVENZIP_SUPPORT` false), the name `rarfile` or
`py7zr` is unbound, and the handler
`except (zipfile.BadZipFile, rarfile.BadRarFile, py7zr.exceptions.Bad7zFile,
ValueError)` raises `NameError` while its tuple is evaluated.  So for every
exception other than `FileNotFoundError` (whose handler comes first and
mentions only a built-in), a `NameError` escapes instead of the wrapped
error whenever one of the libraries is missing. -/

/-- The Python exception classes that escape the reader functions,
including the `NameError` produced by an except clause that mentions a
module which failed to import. -/
inductive PyError where
  | fileNotFoundError (msg : String)
  | valueError (msg : String)
  | runtimeError (msg : String)
  | nameError (msg : String)
deriving DecidableEq, Repr

/-- Outcome of opening an archive and listing its raw members
(format-native names, possibly with backslashes, plus is-directory flags). -/
inductive ReadOutcome where
  | ok (members : List (String × Bool))
  | fileNotFound
  | badArchive (msg : String)
  | unrarNotFound
  | otherError (msg : String)
deriving DecidableEq, Repr

/-- Which optional archive libraries imported successfully
(`RAR_SUPPORT`, `SEVENZIP_SUPPORT`). -/
structure LibSupport where
  rar : Bool
  sevenzip : Bool
deriving DecidableEq, Repr

/-- The extension dispatch of `_get_archive_member_list`: `.zip` always,
`.rar`/`.7z` only with the library available. -/
def extSupported (cfg : LibSupport) (ext : String) : Bool :=
  ext = ".zip" || (ext = ".rar" && cfg.rar) || (ext = ".7z" && cfg.sevenzip)

/-- Whether every module named in the shared except clauses is bound. -/
def allLibsBound (cfg : LibSupport) : Bool := cfg.rar && cfg.sevenzip

/-- The message of the `NameError` raised while evaluating an except tuple
that names a module which failed to import; `rarfile` is evaluated before
`py7zr` in the tuple, so it is reported first. -/
def missingLibMsg (cfg : LibSupport) : String :=
  if !cfg.rar then "name 'rarfile' is not defined"
  else "name 'py7zr' is not defined"

/-- Embedding of `_get_archive_member_list(archive_path)`.  A raised
`FileNotFoundError` is matched by the first handler; every other exception
reaches the handler tuple naming `rarfile` and `py7zr`, which itself raises
`NameError` when one of those libraries is missing. -/
def get_archive_member_list (cfg : LibSupport) (fs : String → ReadOutcome)
    (archive_path : String) : Except PyError (List (String × Bool)) :=
  let ext := strLower (pySuffix archive_path)
  if extSupported cfg ext then
    match fs archive_path with
    | .ok ms => .ok (ms.map (fun e => (backToSlash e.1, e.2)))
    | .fileNotFound =>
        .error (.fileNotFoundError ("Archive not found: '" ++ archive_path ++ "'"))
    | .badArchive m =>
        if allLibsBound cfg then
          .error (.valueError ("Error reading '" ++ pyName archive_path ++ "': " ++ m))
        else .error (.nameError (missingLibMsg cfg))
    | .unrarNotFound =>
        if allLibsBound cfg then
          .error (.runtimeError "Unrar executable not found.")
        else .error (.nameError (missingLibMsg cfg))
    | .otherError m =>
        if allLibsBound cfg then
          .error (.runtimeError
            ("Unexpected error reading '" ++ pyName archive_path ++ "': " ++ m))
        else .error (.nameError (missingLibMsg cfg))
  else
    if allLibsBound cfg then
      .error (.valueError ("Error reading '" ++ pyName archive_path ++
        "': Unsupported/unavailable type: " ++ ext))
    else .error (.nameError (missingLibMsg cfg))

/-- Embedding of `find_esps_in_archive(archive_path)`: list the members, then
run the pure classification loop.  The reader's taxonomy errors
(`FileNotFoundError`, `ValueError`, `RuntimeError`) are re-raised unchanged;
any other exception — in this model, the `NameError` of a missing library —
falls into the `except Exception` clause and is wrapped as a `RuntimeError`
naming the archive. -/
def find_esps_in_archive (cfg : LibSupport) (fs : String → ReadOutcome)
    (archive_path : String) : Except PyError (List String) :=
  match get_archive_member_list cfg fs archive_path with
  | .error (.nameError m) =>
      .error (.runtimeError
        ("Error searching ESPs in '" ++ pyName archive_path ++ "': " ++ m))
  | .error e => .error e
  | .ok ms => .ok (find_esps_members ms)

/-- Embedding of `find_pak_sets_in_archive(archive_path)`. -/
def find_pak_sets_in_archive (cfg : LibSupport) (fs : String → ReadOutcome)
    (archive_path : String) : Except PyError (List PakSet) :=
  match get_archive_member_list cfg fs archive_path with
  | .error (.nameError m) =>
      .error (.runtimeError
        ("Error searching Pak sets in '" ++ pyName archive_path ++ "': " ++ m))
  | .error e => .error e
  | .ok ms => .ok (find_pak_sets_members ms)

/-! ## Selective Extractor: `_extract_files_from_archive` -/

/-- Outcome of asking the archive library to extract the requested members
(the `KeyError` of a missing member falls under `keyOrBadArchive`, exactly as
the source catches it together with the format errors). -/
inductive ExtractOutcome where
  | ok
  | fileNotFound
  | keyOrBadArchive (msg : String)
  | unrarNotFound
  | otherError (msg : String)
deriving DecidableEq, Repr

/-- Embedding of `_extract_files_from_archive(archive_path, files_to_extract,
target_dir)`.  `mkdirOk` is the outcome of `ensure_directory_exists`,
`ex` the outcome of the archive library's extraction calls, and
`existsAfter` the filesystem's answer to the post-extraction existence check;
a missing destination only produces a printed warning in the source, so
`existsAfter` never influences the returned value. -/
def extract_files_from_archive (cfg : LibSupport) (mkdirOk : Bool)
    (ex : String → ExtractOutcome) (_existsAfter : String → Bool)
    (archive_path : String) (files_to_extract : List String)
    (target_dir : String) : Except PyError (List String) :=
  let ext := strLower (pySuffix archive_path)
  if !mkdirOk then .error (.runtimeError ("Failed target dir: " ++ target_dir))
  else if extSupported cfg ext then
    match ex archive_path with
    | .ok => .ok (files_to_extract.map (fun m => pyJoin target_dir m))
    | .fileNotFound =>
        .error (.fileNotFoundError ("Archive not found: '" ++ archive_path ++ "'"))
    | .keyOrBadArchive m =>
        if allLibsBound cfg then
          .error (.valueError
            ("Error extracting from '" ++ pyName archive_path ++ "': " ++ m))
        else .error (.nameError (missingLibMsg cfg))
    | .unrarNotFound =>
        if allLibsBound cfg then
          .error (.runtimeError "Unrar executable not found.")
        else .error (.nameError (missingLibMsg cfg))
    | .otherError m =>
        if allLibsBound cfg then
          .error (.runtimeError
            ("Unexpected extraction error from '" ++ pyName archive_path ++ "': " ++ m))
        else .error (.nameError (missingLibMsg cfg))
  else
    if allLibsBound cfg then
      .error (.valueError ("Error extracting from '" ++ pyName archive_path ++
        "': Unsupported type for extraction: " ++ ext))
    else .error (.nameError (missingLibMsg cfg))

/-- The destination paths the post-extraction check would warn about
(`WARNING: Extracted file missing`); the source only prints these. -/
def extractMissingWarnings (existsAfter : String → Bool)
    (paths : List String) : List String :=
  paths.filter (fun p => !existsAfter p)

/-! ## Load-order registry file: `read_plugins_file` / `write_plugins_file` -/

/-- Universal-newline translation performed by reading a text-mode file:
`\r\n` and bare `\r` both become `\n`. -/
def universalNewlines : List Char → List Char
  | [] => []
  | '\r' :: '\n' :: rest => '\n' :: universalNewlines rest
  | '\r' :: rest => '\n' :: universalNewlines rest
  | c :: rest => c :: universalNewlines rest

/-- The line filter of `read_plugins_file` applied to the decoded content of
`plugins.txt`: keep each line's stripped form when it is non-empty and does
not start with `#`. -/
def read_plugins_content (content : String) : List String :=
  (((splitOnChar '\n' (universalNewlines content.toList)).map
      (fun l => (stripWsChars l).asString)).filter
    (fun s => s ≠ "" && !(strStartsWith s "#")))

/-- Embedding of `read_plugins_file()`: `none` models a missing
`plugins.txt`, for which the source returns the empty list. -/
def read_plugins_file : Option String → List String
  | none => []
  | some content => read_plugins_content content

/-- Embedding of the content written by `write_plugins_file(plugins_list)`:
each truthy entry followed by a newline. -/
def write_plugins_content (plugins_list : List String) : String :=
  strConcat ((plugins_list.filter (fun p => p ≠ "")).map (fun p => p ++ "\n"))

/-! ## Load-order reordering: the pure core of `process_load_order` -/

/-- Whether a plugin line belongs to the default (non-reorderable) section. -/
def isDefaultPlugin (p : String) : Bool :=
  DEFAULT_PLUGINS.contains (strLower p)

/-- The separation loop of `process_load_order`: split into the default and
custom sections, preserving relative order within each. -/
def splitSections (all_plugins : List String) : List String × List String :=
  all_plugins.foldl
    (fun st p =>
      if isDefaultPlugin p then (st.1 ++ [p], st.2) else (st.1, st.2 ++ [p]))
    ([], [])

/-- The pure decision core of `process_load_order`: given the plugin lines of
`plugins.txt` and the numbers parsed out of the user's input
(`re.findall` digit groups), either produce the list that would be written, or
`none` when nothing is written — no custom section, empty input, wrong count,
an index out of range, or a duplicated index.  Indices are `Int` because the
source computes `int(i) - 1` before validating `0 <= idx < num_custom`. -/
def process_load_order_core (all_plugins : List String) (nums : List Nat) :
    Option (List String) :=
  let secs := splitSections all_plugins
  if secs.2.isEmpty then none
  else if nums.isEmpty then none
  else
    let idxs : List Int := nums.map (fun k : Nat => (k : Int) - 1)
    let n := secs.2.length
    if idxs.length ≠ n then none
    else if !(idxs.all (fun i => 0 ≤ i && i < (n : Int))) then none
    else if idxs.dedup.length ≠ n then none
    else some (secs.1 ++ idxs.map (fun i => secs.2.getD i.toNat ""))

/-! ## Predicates used to state the claims about the Layout Normalizer -/

/-- An entry whose first path segment is not in `IGNORE_ITEMS`
(case-insensitively): the entries the detector does not skip. -/
def nonIgnorableEntry (e : String × Bool) : Bool :=
  !(IGNORE_ITEMS.contains (strLower (firstSeg e.1)))

/-- A depth-1 non-directory entry whose name ends, case-insensitively, in a
relevant extension (`.esp`, `.pak`, `.ucas`, `.utoc`): the entries that set
`has_relevant_files_at_root`. -/
def rootRelevantFile (e : String × Bool) : Bool :=
  !e.2 && (pathParts e.1).length = 1 && relevantExtLower (strLower (firstSeg e.1))

/-- An entry that contributes its first segment to the detector's set of
top-level directories: a depth-1 directory entry, or any entry of depth at
least two. -/
def topDirContributor (e : String × Bool) : Bool :=
  ((pathParts e.1).length = 1 && e.2) || 2 ≤ (pathParts e.1).length

/-- Whether the loop of `_detect_single_folder_prefix` sets
`has_relevant_files_at_root` at this entry. -/
def setsFlag (e : String × Bool) : Bool :=
  match pathParts e.1 with
  | [f] => !(IGNORE_ITEMS.contains (strLower f)) && !e.2 &&
      relevantExtLower (strLower f)
  | _ => false

/-- Whether the loop of `_detect_single_folder_prefix` adds the directory
name `d` to `top_level_dirs` at this entry. -/
def contributesDir (e : String × Bool) (d : String) : Bool :=
  match pathParts e.1 with
  | [] => false
  | f :: rest =>
    !(IGNORE_ITEMS.contains (strLower f)) &&
      (if rest.isEmpty then e.2 else true) && f = d

/-! ## Specification-side reference functions

These re-state, straight from the specification's words, what the classifier
ought to return; the claims are settled by comparing them with the embedded
source functions above. -/

/-- The spec's restriction of classified entries to a detected wrapping
folder: "restricted, when a wrapping prefix is detected, to entries whose
path starts with that prefix". -/
def specRestrict : Option String → String → Bool
  | none, _ => true
  | some s, p => strStartsWith p s

/-- The spec's description of `findPlugins`: exactly the non-directory
entries ending case-insensitively in `.esp`, restricted to a detected
wrapping folder, as their original paths in enumeration order. -/
def specEspList (ms : List (String × Bool)) : List String :=
  (ms.filter (fun e =>
    !e.2 && specRestrict (detectSingleFolder ms) e.1 &&
      strEndsWith (strLower e.1) ".esp")).map (fun e => e.1)

/-- The last element of a list satisfying `p`, if any (a dictionary field
written repeatedly holds the value of the last write). -/
def lastWith {α : Type} (p : α → Bool) : List α → Option α
  | [] => none
  | a :: l =>
    match lastWith p l with
    | some b => some b
    | none => if p a then some a else none

/-- First-occurrence deduplication, preserving first-seen order: the key
order of an insertion-ordered dictionary. -/
def firstDedup (l : List String) : List String := l.foldl insertNew []

/-- The paths that reach the recording body of the
`find_pak_sets_in_archive` loop, in enumeration order. -/
def pakPaths (ms : List (String × Bool)) : List String :=
  (ms.filter (pakRelevant (detectSingleFolder ms))).map (fun e => e.1)

/-- The member path recorded for grouping key `k` under extension `ext`:
the last relevant path with that key and that suffix. -/
def specMember (P : List String) (k ext : String) : Option String :=
  lastWith (fun p => pakBaseKey p = k && pakExtOf p = ext) P

/-- The package triple the spec associates to grouping key `k`. -/
def specUnit (P : List String) (k : String) : PakSet :=
  ⟨specMember P k ".pak", specMember P k ".ucas", specMember P k ".utoc"⟩

/-- All grouping keys in first-seen order. -/
def specPakKeys (P : List String) : List String := firstDedup (P.map pakBaseKey)

/-- The spec's description of `findPackageSets`: one unit per grouping key
whose triple is fully populated, in first-seen key order. -/
def specPakSets (ms : List (String × Bool)) : List PakSet :=
  ((specPakKeys (pakPaths ms)).filter
      (fun k => pakSetComplete (specUnit (pakPaths ms) k))).map
    (specUnit (pakPaths ms))

/-- The grouping key of a completed package triple, recovered from its
`.pak` member. -/
def pakSetKeyOf (ps : PakSet) : String := pakBaseKey (ps.pak.getD "")

/-- The `found_bases` dictionary built by recording each of the given paths
in order. -/
def buildBases (P : List String) : List (String × PakSet) :=
  P.foldl pakRecord []

/-! ## Error handling of the reader functions (C6, C7, C8) -/

/-- Claim C6: for every archive path, when the Archive Reader
(`_get_archive_member_list`) fails with one of its taxonomy errors
(`FileNotFoundError`, the `ValueError`s, `RuntimeError`), both
`find_esps_in_archive` and `find_pak_sets_in_archive` propagate that same
failure unchanged; any other failure — the `NameError` escaping the reader's
handlers when an optional library is missing — is wrapped by each function as
a `RuntimeError` carrying the archive's name; and whenever the reader
succeeds, both functions succeed (their classification bodies are total). -/
theorem reader_error_propagation (cfg : LibSupport) (fs : String → ReadOutcome)
    (path : String) :
    (∀ e : PyError, (∀ m, e ≠ .nameError m) →
      get_archive_member_list cfg fs path = .error e →
      find_esps_in_archive cfg fs path = .error e ∧
      find_pak_sets_in_archive cfg fs path = .error e) ∧
    (∀ m, get_archive_member_list cfg fs path = .error (.nameError m) →
      find_esps_in_archive cfg fs path =
        .error (.runtimeError ("Error searching ESPs in '" ++ pyName path ++ "': " ++ m)) ∧
      find_pak_sets_in_archive cfg fs path =
        .error (.runtimeError ("Error searching Pak sets in '" ++ pyName path ++ "': " ++ m))) ∧
    (∀ ms, get_archive_member_list cfg fs path = .ok ms →
      find_esps_in_archive cfg fs path = .ok (find_esps_members ms) ∧
      find_pak_sets_in_archive cfg fs path = .ok (find_pak_sets_members ms)) := by
  refine ⟨?_, ?_, ?_⟩
  · intro e hne h
    rcases e with m | m | m | m
    · constructor <;> simp [find_esps_in_archive, find_pak_sets_in_archive, h]
    · constructor <;> simp [find_esps_in_archive, find_pak_sets_in_archive, h]
    · constructor <;> simp [find_esps_in_archive, find_pak_sets_in_archive, h]
    · exact absurd rfl (hne m)
  · intro m h
    constructor <;> simp [find_esps_in_archive, find_pak_sets_in_archive, h]
  · intro ms h
    constructor <;> simp [find_esps_in_archive, find_pak_sets_in_archive, h]

/-- Witness for C6: a missing `mod.zip` makes both classifier functions fail
with exactly the reader's `FileNotFoundError`. -/
theorem reader_error_propagation_witness :
    find_esps_in_archive ⟨true, true⟩ (fun _ => ReadOutcome.fileNotFound) "mod.zip" =
      .error (.fileNotFoundError "Archive not found: 'mod.zip'") ∧
    find_pak_sets_in_archive ⟨true, true⟩ (fun _ => ReadOutcome.fileNotFound) "mod.zip" =
      .error (.fileNotFoundError "Archive not found: 'mod.zip'") :=
  (reader_error_propagation ⟨true, true⟩ (fun _ => ReadOutcome.fileNotFound)
    "mod.zip").1 (.fileNotFoundError "Archive not found: 'mod.zip'")
    (fun m => by simp) (by rfl)

/-- Claim C7 (amended): an archive path whose extension is not a recognised,
available format makes `_get_archive_member_list` fail without consulting the
archive/filesystem oracle at all: when both optional libraries were imported
it raises exactly the `UnsupportedFormat` taxonomy error — the wrapped
`ValueError` whose message names the unsupported type — and in every case the
failure is neither an `ArchiveNotFound` (`FileNotFoundError`) nor an
`UnexpectedReadError` (`RuntimeError`); when an optional library is missing,
the classifying except clause itself fails to evaluate and a `NameError`
escapes instead of the `UnsupportedFormat` error. -/
theorem unsupported_ext_error (cfg : LibSupport) (fs : String → ReadOutcome)
    (path : String) (h : extSupported cfg (strLower (pySuffix path)) = false) :
    get_archive_member_list cfg fs path =
      (if allLibsBound cfg then
        .error (.valueError ("Error reading '" ++ pyName path ++
          "': Unsupported/unavailable type: " ++ strLower (pySuffix path)))
      else .error (.nameError (missingLibMsg cfg))) ∧
    (∀ m, get_archive_member_list cfg fs path ≠ .error (.fileNotFoundError m)) ∧
    (∀ m, get_archive_member_list cfg fs path ≠ .error (.runtimeError m)) := by
  have h1 : get_archive_member_list cfg fs path =
      (if allLibsBound cfg then
        .error (.valueError ("Error reading '" ++ pyName path ++
          "': Unsupported/unavailable type: " ++ strLower (pySuffix path)))
      else .error (.nameError (missingLibMsg cfg))) := by
    simp [get_archive_member_list, h]
  refine ⟨h1, fun m => ?_, fun m => ?_⟩ <;> rw [h1] <;>
    by_cases hb : allLibsBound cfg <;> simp [hb]

/-- Witness for C7: `.tar` is not a supported format even with both optional
libraries present, so listing `mod.tar` fails as `UnsupportedFormat`. -/
theorem unsupported_ext_error_witness :
    get_archive_member_list ⟨true, true⟩ (fun _ => ReadOutcome.ok []) "mod.tar" =
      (if allLibsBound ⟨true, true⟩ then
        .error (.valueError ("Error reading '" ++ pyName "mod.tar" ++
          "': Unsupported/unavailable type: " ++ strLower (pySuffix "mod.tar")))
      else .error (.nameError (missingLibMsg ⟨true, true⟩))) ∧
    (∀ m, get_archive_member_list ⟨true, true⟩ (fun _ => ReadOutcome.ok [])
      "mod.tar" ≠ .error (.fileNotFoundError m)) ∧
    (∀ m, get_archive_member_list ⟨true, true⟩ (fun _ => ReadOutcome.ok [])
      "mod.tar" ≠ .error (.runtimeError m)) :=
  unsupported_ext_error ⟨true, true⟩ (fun _ => ReadOutcome.ok []) "mod.tar" (by decide)

/-- Counterexample for C7 as stated: with the `rarfile` and `py7zr` libraries
missing — precisely the situation in which `.rar` and `.7z` are
"not available" — listing `mod.tar` does not raise the `UnsupportedFormat`
`ValueError` at all: the handler that would wrap it names the unbound module
`rarfile` and a `NameError` escapes instead. -/
theorem unsupported_ext_counterexample :
    extSupported ⟨false, false⟩ (strLower (pySuffix "mod.tar")) = false ∧
    get_archive_member_list ⟨false, false⟩ (fun _ => ReadOutcome.ok []) "mod.tar" =
      .error (.nameError "name 'rarfile' is not defined") ∧
    (∀ m, get_archive_member_list ⟨false, false⟩ (fun _ => ReadOutcome.ok [])
      "mod.tar" ≠ .error (.valueError m)) := by
  have h2 : get_archive_member_list ⟨false, false⟩ (fun _ => ReadOutcome.ok [])
      "mod.tar" = .error (.nameError "name 'rarfile' is not defined") := by rfl
  exact ⟨by decide, h2, fun m => by simp [h2]⟩

/-- Claim C8: when the target directory is created and the underlying format
extraction completes without raising, `_extract_files_from_archive` returns
exactly one destination path per requested entry — the target directory
joined with the entry's archive-relative path, in request order — and the
result does not depend on the post-extraction existence check at all: a
missing destination can only ever produce the printed warning, never a
failure or a shortened list. -/
theorem extract_success_paths (cfg : LibSupport) (ex : String → ExtractOutcome)
    (existsAfter : String → Bool) (path : String) (files : List String)
    (target : String)
    (hext : extSupported cfg (strLower (pySuffix path)) = true)
    (hok : ex path = .ok) :
    extract_files_from_archive cfg true ex existsAfter path files target =
      .ok (files.map (fun m => pyJoin target m)) ∧
    (files.map (fun m => pyJoin target m)).length = files.length ∧
    (∀ g : String → Bool,
      extract_files_from_archive cfg true ex g path files target =
        extract_files_from_archive cfg true ex existsAfter path files target) := by
  refine ⟨?_, by simp, fun g => rfl⟩
  simp [extract_files_from_archive, hext, hok]

/-- Witness for C8: extracting one entry of `mod.zip` into `/tmp/t` yields
exactly its joined destination path, even when the existence oracle reports
every destination as missing. -/
theorem extract_success_paths_witness :
    extract_files_from_archive ⟨true, true⟩ true (fun _ => ExtractOutcome.ok)
      (fun _ => false) "mod.zip" ["ModName/Plugin.esp"] "/tmp/t" =
      .ok (["ModName/Plugin.esp"].map (fun m => pyJoin "/tmp/t" m)) ∧
    (["ModName/Plugin.esp"].map (fun m => pyJoin "/tmp/t" m)).length =
      (["ModName/Plugin.esp"] : List String).length ∧
    (∀ g : String → Bool,
      extract_files_from_archive ⟨true, true⟩ true (fun _ => ExtractOutcome.ok)
        g "mod.zip" ["ModName/Plugin.esp"] "/tmp/t" =
        extract_files_from_archive ⟨true, true⟩ true (fun _ => ExtractOutcome.ok)
          (fun _ => false) "mod.zip" ["ModName/Plugin.esp"] "/tmp/t") :=
  extract_success_paths ⟨true, true⟩ (fun _ => ExtractOutcome.ok) (fun _ => false)
    "mod.zip" ["ModName/Plugin.esp"] "/tmp/t" (by decide) (by rfl)

/-! ## Load-order file round trip (C9) -/

theorem toList_append (s t : String) : (s ++ t).toList = s.toList ++ t.toList := rfl

theorem toList_asString (s : String) : (s.toList).asString = s := rfl

theorem strHasChar_false_iff (c : Char) (s : String) :
    strHasChar c s = false ↔ c ∉ s.toList := by
  simp [strHasChar]

theorem universalNewlines_cons_ne (a : Char) (t : List Char) (ha : a ≠ '\r') :
    universalNewlines (a :: t) = a :: universalNewlines t := by
  rcases t with _ | ⟨b, t2⟩
  · simp [universalNewlines, ha]
  · by_cases hb : b = '\n' <;> simp [universalNewlines, ha, hb]

theorem universalNewlines_eq_self (cs : List Char) (h : ∀ c ∈ cs, c ≠ '\r') :
    universalNewlines cs = cs := by
  induction cs with
  | nil => rfl
  | cons a t ih =>
    rw [universalNewlines_cons_ne a t (h a (by simp)),
      ih (fun c hc => h c (by simp [hc]))]

theorem splitOnChar_sep (c : Char) (xs rest : List Char) (h : c ∉ xs) :
    splitOnChar c (xs ++ c :: rest) = xs :: splitOnChar c rest := by
  induction xs with
  | nil => simp [splitOnChar]
  | cons a t ih =>
    have ha : ¬(a = c) := fun hac => h (by simp [hac])
    have ht : c ∉ t := fun hct => h (by simp [hct])
    simp only [List.cons_append, splitOnChar, if_neg ha, List.append_eq, ih ht]

theorem no_cr_in_written (l : List String)
    (h : ∀ s ∈ l, strHasChar '\r' s = false) :
    ∀ c ∈ (strConcat (l.map (fun p => p ++ "\n"))).toList, c ≠ '\r' := by
  induction l with
  | nil => intro c hc; simp [strConcat] at hc
  | cons s t ih =>
    intro c hc
    simp only [List.map_cons, strConcat, toList_append] at hc
    rcases List.mem_append.mp hc with h1 | h2
    · rcases List.mem_append.mp h1 with h3 | h4
      · intro hr
        subst hr
        exact ((strHasChar_false_iff _ _).mp (h s (by simp))) h3
      · have hcn : c = '\n' := by simpa using h4
        simp [hcn]
    · exact ih (fun x hx => h x (by simp [hx])) c h2

theorem split_written (l : List String)
    (h : ∀ s ∈ l, strHasChar '\n' s = false) :
    splitOnChar '\n' (strConcat (l.map (fun p => p ++ "\n"))).toList =
      l.map String.toList ++ [[]] := by
  induction l with
  | nil => simp [strConcat, splitOnChar]
  | cons s t ih =>
    have hs : '\n' ∉ s.toList :=
      (strHasChar_false_iff _ _).mp (h s (by simp))
    have hrest := ih (fun x hx => h x (by simp [hx]))
    simp only [List.map_cons, strConcat, toList_append]
    have hshape : s.toList ++ ("\n".toList ++ (strConcat (t.map (fun p => p ++ "\n"))).toList) =
        s.toList ++ '\n' :: (strConcat (t.map (fun p => p ++ "\n"))).toList := rfl
    rw [List.append_assoc, hshape, splitOnChar_sep _ _ _ hs, hrest]
    simp

/-- Claim C9 (amended): writing a list of entries each of which is non-empty,
equal to its stripped form, not starting with `#`, and free of newline and
carriage-return characters, then reading the file back, returns the same
list; and reading any content only ever yields non-empty lines that do not
start with `#`. -/
theorem plugins_round_trip :
    (∀ l : List String,
      (∀ s ∈ l, s ≠ "" ∧ pyStrip s = s ∧ strStartsWith s "#" = false ∧
        strHasChar '\n' s = false ∧ strHasChar '\r' s = false) →
      read_plugins_file (some (write_plugins_content l)) = l) ∧
    (∀ content : String, ∀ s ∈ read_plugins_file (some content),
      s ≠ "" ∧ strStartsWith s "#" = false) := by
  constructor
  · intro l h
    have hfilter : l.filter (fun p => p ≠ "") = l :=
      List.filter_eq_self.mpr (fun s hs => by simp [(h s hs).1])
    have hwrite : write_plugins_content l = strConcat (l.map (fun p => p ++ "\n")) := by
      rw [write_plugins_content, hfilter]
    have hnl := universalNewlines_eq_self
      (strConcat (l.map (fun p => p ++ "\n"))).toList
      (no_cr_in_written l (fun s hs => (h s hs).2.2.2.2))
    have hsplit := split_written l (fun s hs => (h s hs).2.2.2.1)
    simp only [read_plugins_file, read_plugins_content, hwrite, hnl, hsplit]
    have hmap : (l.map String.toList ++ [[]]).map (fun cs => (stripWsChars cs).asString) =
        l ++ [""] := by
      rw [List.map_append, List.map_map]
      have h0 : (([[]] : List (List Char)).map (fun cs => (stripWsChars cs).asString)) =
          [""] := rfl
      rw [h0]
      have h1 : l.map ((fun cs => (stripWsChars cs).asString) ∘ String.toList) = l := by
        calc l.map ((fun cs => (stripWsChars cs).asString) ∘ String.toList)
            = l.map id := List.map_congr_left (fun s hs => (h s hs).2.1)
          _ = l := List.map_id l
      rw [h1]
    rw [hmap, List.filter_append]
    have h1 : l.filter (fun s => s ≠ "" && !(strStartsWith s "#")) = l :=
      List.filter_eq_self.mpr (fun s hs => by simp [(h s hs).1, (h s hs).2.2.1])
    have h2 : ([""] : List String).filter (fun s => s ≠ "" && !(strStartsWith s "#")) =
        [] := by decide
    rw [h1, h2, List.append_nil]
  · intro content s hs
    simp only [read_plugins_file, read_plugins_content, List.mem_filter] at hs
    have h2 := hs.2
    simp only [Bool.and_eq_true, decide_eq_true_eq, Bool.not_eq_true'] at h2
    exact ⟨h2.1, h2.2⟩

/-- Witness for C9: a well-formed two-entry list survives the write/read
round trip. -/
theorem plugins_round_trip_witness :
    read_plugins_file (some (write_plugins_content ["MyMod.esp", "Another Mod.esp"])) =
      ["MyMod.esp", "Another Mod.esp"] :=
  plugins_round_trip.1 ["MyMod.esp", "Another Mod.esp"] (by decide)

/-- Counterexample for C9 as stated: the string `"a\nb"` is non-empty, equal
to its stripped form and does not start with `#`, yet writing `["a\nb"]` and
reading it back yields `["a", "b"]`, not `["a\nb"]` — the stated hypotheses
do not exclude entries containing embedded newlines. -/
theorem plugins_round_trip_counterexample :
    ("a\nb" ≠ "" ∧ pyStrip "a\nb" = "a\nb" ∧ strStartsWith "a\nb" "#" = false) ∧
    read_plugins_file (some (write_plugins_content ["a\nb"])) ≠ ["a\nb"] := by
  decide

/-! ## Layout Normalizer lemmas (C2, C3) -/

theorem contains_iff (l : List String) (a : String) : l.contains a = true ↔ a ∈ l := by
  simp [List.contains]

theorem mem_insertNew (ds : List String) (f d : String) :
    d ∈ insertNew ds f ↔ d ∈ ds ∨ d = f := by
  unfold insertNew
  by_cases hc : f ∈ ds
  · rw [if_pos ((contains_iff ds f).mpr hc)]
    constructor
    · exact Or.inl
    · rintro (hd | rfl)
      · exact hd
      · exact hc
  · rw [if_neg (fun hb => hc ((contains_iff ds f).mp hb))]
    simp

theorem insertNew_nodup (ds : List String) (f : String) (h : ds.Nodup) :
    (insertNew ds f).Nodup := by
  unfold insertNew
  by_cases hc : f ∈ ds
  · rw [if_pos ((contains_iff ds f).mpr hc)]
    exact h
  · rw [if_neg (fun hb => hc ((contains_iff ds f).mp hb))]
    simp [List.nodup_append, h, hc]

theorem detectStep_flag (st : List String × Bool) (e : String × Bool) :
    (detectStep st e).2 = (st.2 || setsFlag e) := by
  unfold detectStep setsFlag
  rcases hp : pathParts e.1 with _ | ⟨f, rest⟩
  · simp
  · rcases rest with _ | ⟨g, rest2⟩
    · by_cases hig : strLower f ∈ IGNORE_ITEMS
      · simp [hig]
      · by_cases hd : e.2
        · simp [hig, hd]
        · by_cases hrel : relevantExtLower (strLower f)
          · simp [hig, hd, hrel]
          · simp [hig, hd, hrel]
    · by_cases hig : strLower f ∈ IGNORE_ITEMS
      · simp [hig]
      · simp [hig]

theorem foldl_detectStep_flag (ms : List (String × Bool)) :
    ∀ st : List String × Bool,
      (ms.foldl detectStep st).2 = (st.2 || ms.any setsFlag) := by
  induction ms with
  | nil => intro st; simp
  | cons e t ih =>
    intro st
    rw [List.foldl_cons, ih, detectStep_flag]
    simp [Bool.or_assoc]

theorem detectStep_mem (st : List String × Bool) (e : String × Bool) (d : String) :
    d ∈ (detectStep st e).1 ↔ d ∈ st.1 ∨ contributesDir e d = true := by
  unfold detectStep contributesDir
  rcases hp : pathParts e.1 with _ | ⟨f, rest⟩
  · simp
  · rcases rest with _ | ⟨g, rest2⟩
    · by_cases hig : strLower f ∈ IGNORE_ITEMS
      · simp [hig]
      · by_cases hd : e.2
        · simp [hig, hd, mem_insertNew, eq_comm]
        · by_cases hrel : relevantExtLower (strLower f)
          · simp [hig, hd, hrel]
          · simp [hig, hd, hrel]
    · by_cases hig : strLower f ∈ IGNORE_ITEMS
      · simp [hig]
      · simp [hig, mem_insertNew, eq_comm]

theorem foldl_detectStep_mem (ms : List (String × Bool)) :
    ∀ (st : List String × Bool) (d : String),
      d ∈ (ms.foldl detectStep st).1 ↔
        d ∈ st.1 ∨ ∃ e ∈ ms, contributesDir e d = true := by
  induction ms with
  | nil => intro st d; simp
  | cons e t ih =>
    intro st d
    rw [List.foldl_cons, ih, detectStep_mem]
    constructor
    · rintro ((hd | hc) | ⟨x, hx, hcx⟩)
      · exact Or.inl hd
      · exact Or.inr ⟨e, by simp, hc⟩
      · exact Or.inr ⟨x, by simp [hx], hcx⟩
    · rintro (hd | ⟨x, hx, hcx⟩)
      · exact Or.inl (Or.inl hd)
      · rcases List.mem_cons.mp hx with rfl | hxt
        · exact Or.inl (Or.inr hcx)
        · exact Or.inr ⟨x, hxt, hcx⟩

theorem detectStep_nodup (st : List String × Bool) (e : String × Bool)
    (h : st.1.Nodup) : (detectStep st e).1.Nodup := by
  unfold detectStep
  rcases hp : pathParts e.1 with _ | ⟨f, rest⟩
  · exact h
  · rcases rest with _ | ⟨g, rest2⟩
    · by_cases hig : strLower f ∈ IGNORE_ITEMS
      · simpa [hig] using h
      · by_cases hd : e.2
        · simpa [hig, hd] using insertNew_nodup st.1 f h
        · by_cases hrel : relevantExtLower (strLower f)
          · simpa [hig, hd, hrel] using h
          · simpa [hig, hd, hrel] using h
    · by_cases hig : strLower f ∈ IGNORE_ITEMS
      · simpa [hig] using h
      · simpa [hig] using insertNew_nodup st.1 f h

theorem foldl_detectStep_nodup (ms : List (String × Bool)) :
    ∀ st : List String × Bool, st.1.Nodup → (ms.foldl detectStep st).1.Nodup := by
  induction ms with
  | nil => intro st h; exact h
  | cons e t ih =>
    intro st h
    exact ih _ (detectStep_nodup st e h)

theorem ignore_not_relevant : ∀ s ∈ IGNORE_ITEMS, relevantExtLower s = false := by
  decide

theorem root_setsFlag (e : String × Bool) (h : rootRelevantFile e = true) :
    setsFlag e = true := by
  unfold rootRelevantFile firstSeg at h
  unfold setsFlag
  rcases hp : pathParts e.1 with _ | ⟨f, rest⟩
  · rw [hp] at h; simp at h
  · rcases rest with _ | ⟨g, r2⟩
    · rw [hp] at h
      simp only [List.headD_cons, List.length_cons, List.length_nil] at h
      simp only [Bool.and_eq_true] at h
      have hrel : relevantExtLower (strLower f) = true := h.2
      have hne : strLower f ∉ IGNORE_ITEMS := by
        intro hmem
        rw [ignore_not_relevant (strLower f) hmem] at hrel
        exact Bool.false_ne_true hrel
      simp [hne, h.1.1, hrel]
    · rw [hp] at h; simp at h

theorem setsFlag_root (e : String × Bool) (h : setsFlag e = true) :
    rootRelevantFile e = true := by
  unfold setsFlag at h
  unfold rootRelevantFile firstSeg
  rcases hp : pathParts e.1 with _ | ⟨f, rest⟩
  · rw [hp] at h; simp at h
  · rcases rest with _ | ⟨g, r2⟩
    · rw [hp] at h
      simp only [Bool.and_eq_true] at h
      simp [hp, h.1.2, h.2]
    · rw [hp] at h; simp at h

theorem contributesDir_props (e : String × Bool) (d : String)
    (h : contributesDir e d = true) :
    nonIgnorableEntry e = true ∧ firstSeg e.1 = d := by
  unfold contributesDir at h
  unfold nonIgnorableEntry firstSeg
  rcases hp : pathParts e.1 with _ | ⟨f, rest⟩
  · rw [hp] at h; simp at h
  · rw [hp] at h
    simp only [Bool.and_eq_true] at h
    have hni : strLower f ∉ IGNORE_ITEMS := by
      have := h.1.1
      simpa using this
    refine ⟨by simp [hp, hni], ?_⟩
    have := h.2
    simp only [List.headD_cons, hp]
    simpa using this

theorem topDir_contributes (e : String × Bool) (hni : nonIgnorableEntry e = true)
    (ht : topDirContributor e = true) :
    contributesDir e (firstSeg e.1) = true := by
  unfold topDirContributor at ht
  unfold nonIgnorableEntry firstSeg at hni
  unfold contributesDir firstSeg
  rcases hp : pathParts e.1 with _ | ⟨f, rest⟩
  · rw [hp] at ht; simp at ht
  · rw [hp] at ht hni
    rcases rest with _ | ⟨g, r2⟩
    · simp only [List.length_cons, List.length_nil, List.headD_cons] at ht ⊢
      simp only [List.isEmpty_nil, if_true]
      simp at ht hni ⊢
      exact ⟨hni, ht⟩
    · simp only [List.headD_cons] at hni ⊢
      simp at hni ⊢
      exact hni

theorem detectSingleFolder_eval (ms : List (String × Bool)) :
    detectSingleFolder ms =
      match (ms.foldl detectStep ([], false)).1.filter
          (fun d => !(IGNORE_ITEMS.contains (strLower d))),
          (ms.foldl detectStep ([], false)).2 with
      | [d], false => if allInside ms d then some (d ++ "/") else none
      | _, _ => none := rfl

theorem nodup_eq_singleton (l : List String) (s : String) (hn : l.Nodup)
    (hall : ∀ x ∈ l, x = s) (hs : s ∈ l) : l = [s] := by
  rcases l with _ | ⟨a, t⟩
  · simp at hs
  · have ha : a = s := hall a (by simp)
    subst ha
    rcases t with _ | ⟨b, u⟩
    · rfl
    · exfalso
      have hb : b = a := hall b (by simp)
      rw [List.nodup_cons] at hn
      exact hn.1 (by simp [hb.symm])

/-- Claim C3: an archive entry list containing a depth-1 non-directory entry
whose name ends, case-insensitively, in a relevant extension makes
`_detect_single_folder_prefix` return `None`, whatever else the archive
contains. -/
theorem detect_none_of_root_relevant (ms : List (String × Bool))
    (h : ∃ e ∈ ms, rootRelevantFile e = true) :
    detectSingleFolder ms = none := by
  obtain ⟨e, hem, hrel⟩ := h
  have hflag : (ms.foldl detectStep ([], false)).2 = true := by
    rw [foldl_detectStep_flag]
    simp only [Bool.false_or, List.any_eq_true]
    exact ⟨e, hem, root_setsFlag e hrel⟩
  rw [detectSingleFolder_eval ms, hflag]
  rcases (ms.foldl detectStep ([], false)).1.filter
      (fun d => !(IGNORE_ITEMS.contains (strLower d))) with _ | ⟨d, _ | _⟩ <;>
    rfl

/-- Witness for C3: a root-level `x.pak` disqualifies detection even with a
single top-level folder present. -/
theorem detect_none_of_root_relevant_witness :
    detectSingleFolder [("Foo/", true), ("Foo/a.esp", false), ("x.pak", false)] = none :=
  detect_none_of_root_relevant
    [("Foo/", true), ("Foo/a.esp", false), ("x.pak", false)]
    (by decide)

/-- Counterexample for C2 as stated: in the archive `[("foo", false)]` every
non-ignorable entry's first segment is `"foo"` and no depth-1 entry is a file
with a relevant extension, yet the detector returns `None` rather than
`"foo/"` — a lone depth-1 plain file never enters `top_level_dirs`, so no
single top-level segment is found. -/
theorem detect_uniform_counterexample :
    (∃ e ∈ ([("foo", false)] : List (String × Bool)), nonIgnorableEntry e = true) ∧
    (∀ e ∈ ([("foo", false)] : List (String × Bool)),
      nonIgnorableEntry e = true → firstSeg e.1 = "foo") ∧
    (∀ e ∈ ([("foo", false)] : List (String × Bool)), rootRelevantFile e = false) ∧
    detectSingleFolder [("foo", false)] ≠ some ("foo" ++ "/") := by
  decide

/-- Claim C2 (amended): if every non-ignorable entry's first path segment is
the same string `s`, no depth-1 entry is a file with a relevant extension,
and at least one non-ignorable entry actually records `s` as a top-level
directory (a depth-1 directory entry, or any entry of depth at least two),
then the detector returns `s` followed by `/`. -/
theorem detect_single_folder_uniform (ms : List (String × Bool)) (s : String)
    (h1 : ∀ e ∈ ms, nonIgnorableEntry e = true → firstSeg e.1 = s)
    (h2 : ∃ e ∈ ms, nonIgnorableEntry e = true ∧ topDirContributor e = true)
    (h3 : ∀ e ∈ ms, rootRelevantFile e = false) :
    detectSingleFolder ms = some (s ++ "/") := by
  obtain ⟨w, hwm, hwni, hwtop⟩ := h2
  have hws : firstSeg w.1 = s := h1 w hwm hwni
  have hflag : (ms.foldl detectStep ([], false)).2 = false := by
    rw [foldl_detectStep_flag]
    simp only [Bool.false_or, List.any_eq_false]
    intro e hem hf
    have := root_setsFlag
    have hr := setsFlag_root e hf
    rw [h3 e hem] at hr
    exact Bool.false_ne_true hr
  have hdirs : (ms.foldl detectStep ([], false)).1 = [s] := by
    apply nodup_eq_singleton
    · exact foldl_detectStep_nodup ms ([], false) List.nodup_nil
    · intro x hx
      rcases (foldl_detectStep_mem ms ([], false) x).mp hx with hin | ⟨e, hem, hce⟩
      · simp at hin
      · obtain ⟨hni, hfs⟩ := contributesDir_props e x hce
        rw [← hfs]
        exact h1 e hem hni
    · apply (foldl_detectStep_mem ms ([], false) s).mpr
      refine Or.inr ⟨w, hwm, ?_⟩
      rw [← hws]
      exact topDir_contributes w hwni hwtop
  have hig : strLower s ∉ IGNORE_ITEMS := by
    unfold nonIgnorableEntry at hwni
    rw [hws] at hwni
    simpa using hwni
  have hain : allInside ms s = true := by
    unfold allInside
    rw [List.all_eq_true]
    intro e hem
    by_cases hstrip : stripSlashes e.1 = ""
    · simp [hstrip]
    · by_cases hige : strLower (firstSeg e.1) ∈ IGNORE_ITEMS
      · simp [hstrip, hige]
      · have hni : nonIgnorableEntry e = true := by
          unfold nonIgnorableEntry
          simpa using hige
        have := h1 e hem hni
        simp [hstrip, hige, this]
  rw [detectSingleFolder_eval ms, hflag, hdirs]
  have hfilter : ([s] : List String).filter
      (fun d => !(IGNORE_ITEMS.contains (strLower d))) = [s] := by
    simp [hig]
  rw [hfilter]
  simp [hain]

/-- Witness for the amended C2: a single wrapped folder `Foo` is detected. -/
theorem detect_single_folder_uniform_witness :
    detectSingleFolder [("Foo/", true), ("Foo/a.esp", false)] = some ("Foo" ++ "/") :=
  detect_single_folder_uniform [("Foo/", true), ("Foo/a.esp", false)] "Foo"
    (by decide) (by decide) (by decide)

/-! ## Content Classifier: plugins (C4) -/

theorem detect_some_shape (ms : List (String × Bool)) (x : String)
    (h : detectSingleFolder ms = some x) : ∃ d, x = d ++ "/" := by
  rw [detectSingleFolder_eval ms] at h
  split at h
  · split at h
    · exact ⟨_, (Option.some_inj.mp h).symm⟩
    · simp at h
  · simp at h

theorem detect_ne_empty (ms : List (String × Bool)) (x : String)
    (h : detectSingleFolder ms = some x) : x ≠ "" := by
  obtain ⟨d, rfl⟩ := detect_some_shape ms x h
  intro he
  have := congrArg String.toList he
  rw [toList_append] at this
  simp at this

theorem preBlocks_detect (ms : List (String × Bool)) (p : String) :
    preBlocks (detectSingleFolder ms) p = !(specRestrict (detectSingleFolder ms) p) := by
  rcases hd : detectSingleFolder ms with _ | x
  · simp [preBlocks, specRestrict]
  · have hne : x ≠ "" := detect_ne_empty ms x hd
    simp [preBlocks, specRestrict, hne]

theorem find_esps_fold (ms0 : List (String × Bool)) (l : List (String × Bool)) :
    ∀ acc : List String,
      l.foldl (fun acc e =>
        if e.2 then acc
        else if preBlocks (detectSingleFolder ms0) e.1 then acc
        else if strEndsWith (strLower e.1) ".esp" then acc ++ [e.1]
        else acc) acc =
      acc ++ (l.filter (fun e =>
        !e.2 && specRestrict (detectSingleFolder ms0) e.1 &&
          strEndsWith (strLower e.1) ".esp")).map (fun e => e.1) := by
  induction l with
  | nil => intro acc; simp
  | cons e t ih =>
    intro acc
    rw [List.foldl_cons]
    by_cases h1 : e.2
    · simp [h1, ih]
    · by_cases h2 : specRestrict (detectSingleFolder ms0) e.1
      · have hpb : preBlocks (detectSingleFolder ms0) e.1 = false := by
          rw [preBlocks_detect]
          simp [h2]
        by_cases h3 : strEndsWith (strLower e.1) ".esp"
        · simp [h1, hpb, h3, ih, h2]
        · simp [h1, hpb, h3, ih, h2]
      · have hpb : preBlocks (detectSingleFolder ms0) e.1 = true := by
          rw [preBlocks_detect]
          simp [h2]
        simp [h1, hpb, ih, h2]

theorem find_esps_members_eq_spec (ms : List (String × Bool)) :
    find_esps_members ms = specEspList ms := by
  have h := find_esps_fold ms ms []
  simpa [find_esps_members, specEspList] using h

/-- Claim C4: `find_esps_in_archive`'s classification returns exactly the
non-directory entries whose path ends case-insensitively in `.esp` —
restricted, when a wrapping folder is detected, to entries whose path starts
with that detected name — as their original full archive paths in
enumeration order; in particular an archive containing only
`ModName/Plugin.esp` yields exactly that path. -/
theorem find_esps_characterization (ms : List (String × Bool)) :
    find_esps_members ms = specEspList ms ∧
    find_esps_members [("ModName/Plugin.esp", false)] = ["ModName/Plugin.esp"] :=
  ⟨find_esps_members_eq_spec ms, by decide⟩

/-! ## Content Classifier: package sets (C1, C5) -/

theorem lastWith_append_singleton {α : Type} (p : α → Bool) (l : List α) (a : α) :
    lastWith p (l ++ [a]) = if p a then some a else lastWith p l := by
  induction l with
  | nil => by_cases hpa : p a <;> simp [lastWith, hpa]
  | cons b t ih => by_cases hpa : p a <;> simp [lastWith, ih, hpa]

theorem lastWith_eq_none_iff {α : Type} (p : α → Bool) (l : List α) :
    lastWith p l = none ↔ ∀ a ∈ l, p a = false := by
  induction l with
  | nil => simp [lastWith]
  | cons b t ih =>
    rw [lastWith]
    rcases hw : lastWith p t with _ | c
    · rw [hw] at ih
      by_cases hpb : p b
      · simp only [if_pos hpb]
        constructor
        · intro hc; exact absurd hc (by simp)
        · intro hall
          rw [hall b (by simp)] at hpb
          exact absurd hpb (by simp)
      · simp only [if_neg hpb]
        constructor
        · intro _ a ha
          rcases List.mem_cons.mp ha with rfl | hat
          · exact Bool.not_eq_true _ ▸ (by simpa using hpb)
          · exact (ih.mp rfl) a hat
        · intro _; trivial
    · constructor
      · intro hc; exact absurd hc (by simp)
      · intro hall
        have : lastWith p t = none := ih.mpr (fun a ha => hall a (by simp [ha]))
        rw [this] at hw
        exact absurd hw (by simp)

theorem lastWith_eq_none {α : Type} (p : α → Bool) (l : List α)
    (h : ∀ a ∈ l, p a = false) : lastWith p l = none :=
  (lastWith_eq_none_iff p l).mpr h

theorem lastWith_some {α : Type} (p : α → Bool) (l : List α) (a : α)
    (h : lastWith p l = some a) : a ∈ l ∧ p a = true := by
  induction l with
  | nil => simp [lastWith] at h
  | cons b t ih =>
    rw [lastWith] at h
    rcases hw : lastWith p t with _ | c
    · rw [hw] at h
      by_cases hpb : p b
      · rw [if_pos hpb] at h
        have : b = a := Option.some_inj.mp h
        subst this
        exact ⟨by simp, hpb⟩
      · rw [if_neg hpb] at h
        simp at h
    · rw [hw] at h
      have : c = a := Option.some_inj.mp h
      subst this
      obtain ⟨hm, hp⟩ := ih hw
      exact ⟨by simp [hm], hp⟩

theorem mem_foldl_insertNew (l : List String) :
    ∀ (acc : List String) (a : String),
      a ∈ l.foldl insertNew acc ↔ a ∈ acc ∨ a ∈ l := by
  induction l with
  | nil => intro acc a; simp
  | cons b t ih =>
    intro acc a
    rw [List.foldl_cons, ih]
    rw [mem_insertNew]
    constructor
    · rintro ((ha | rfl) | hat)
      · exact Or.inl ha
      · exact Or.inr (by simp)
      · exact Or.inr (by simp [hat])
    · rintro (ha | hm)
      · exact Or.inl (Or.inl ha)
      · rcases List.mem_cons.mp hm with rfl | hat
        · exact Or.inl (Or.inr rfl)
        · exact Or.inr hat

theorem mem_firstDedup (l : List String) (a : String) :
    a ∈ firstDedup l ↔ a ∈ l := by
  unfold firstDedup
  rw [mem_foldl_insertNew]
  simp

theorem foldl_insertNew_nodup (l : List String) :
    ∀ acc : List String, acc.Nodup → (l.foldl insertNew acc).Nodup := by
  induction l with
  | nil => intro acc h; exact h
  | cons b t ih =>
    intro acc h
    exact ih _ (insertNew_nodup acc b h)

theorem firstDedup_nodup (l : List String) : (firstDedup l).Nodup :=
  foldl_insertNew_nodup l [] List.nodup_nil

theorem firstDedup_append_singleton (l : List String) (a : String) :
    firstDedup (l ++ [a]) = insertNew (firstDedup l) a := by
  unfold firstDedup
  rw [List.foldl_append]
  rfl

theorem hasKey_iff (bases : List (String × PakSet)) (k : String) :
    hasKey bases k = true ↔ k ∈ bases.map Prod.fst := by
  unfold hasKey
  rw [List.any_eq_true]
  simp [List.mem_map, eq_comm]

theorem filter_map_general {α β : Type} (f : β → α) (q : α → Bool) (l : List β) :
    (l.map f).filter q = (l.filter (fun b => q (f b))).map f := by
  induction l with
  | nil => rfl
  | cons b t ih =>
    by_cases hq : q (f b) <;> simp [hq, ih]

theorem specMember_append (P : List String) (p k ext : String) :
    specMember (P ++ [p]) k ext =
      if pakBaseKey p = k ∧ pakExtOf p = ext then some p
      else specMember P k ext := by
  unfold specMember
  rw [lastWith_append_singleton]
  by_cases h1 : pakBaseKey p = k <;> by_cases h2 : pakExtOf p = ext <;>
    simp [h1, h2]

theorem specUnit_append (P : List String) (p k : String) :
    specUnit (P ++ [p]) k =
      if pakBaseKey p = k then assignExt (pakExtOf p) p (specUnit P k)
      else specUnit P k := by
  unfold specUnit assignExt
  by_cases hk : pakBaseKey p = k
  · by_cases e1 : pakExtOf p = ".pak"
    · simp [specMember_append, hk, e1]
    · by_cases e2 : pakExtOf p = ".ucas"
      · simp [specMember_append, hk, e1, e2]
      · by_cases e3 : pakExtOf p = ".utoc"
        · simp [specMember_append, hk, e1, e2, e3]
        · simp [specMember_append, hk, e1, e2, e3]
  · simp [specMember_append, hk]

theorem specUnit_of_not_mem (P : List String) (k : String)
    (h : k ∉ P.map pakBaseKey) : specUnit P k = emptyPakSet := by
  have hm : ∀ ext, specMember P k ext = none := by
    intro ext
    apply lastWith_eq_none
    intro p hp
    have hne : pakBaseKey p ≠ k := fun he => h (List.mem_map.mpr ⟨p, hp, he⟩)
    simp [hne]
  unfold specUnit emptyPakSet
  simp [hm]

theorem foldl_pakStep_eq (pre : Option String) (ms : List (String × Bool)) :
    ∀ st : List (String × PakSet),
      ms.foldl (pakStep pre) st =
        ((ms.filter (pakRelevant pre)).map (fun e => e.1)).foldl pakRecord st := by
  induction ms with
  | nil => intro st; rfl
  | cons e t ih =>
    intro st
    rw [List.foldl_cons]
    by_cases hr : pakRelevant pre e
    · simp [pakStep, hr, ih]
    · simp [pakStep, hr, ih]

theorem mem_specPakKeys (P : List String) (k : String) :
    k ∈ specPakKeys P ↔ k ∈ P.map pakBaseKey :=
  mem_firstDedup _ _

theorem specPakKeys_append (P : List String) (p : String) :
    specPakKeys (P ++ [p]) =
      if pakBaseKey p ∈ specPakKeys P then specPakKeys P
      else specPakKeys P ++ [pakBaseKey p] := by
  unfold specPakKeys
  rw [List.map_append]
  have hmap : ([p].map pakBaseKey) = [pakBaseKey p] := rfl
  rw [hmap, firstDedup_append_singleton]
  unfold insertNew
  by_cases hm : pakBaseKey p ∈ firstDedup (P.map pakBaseKey)
  · rw [if_pos ((contains_iff _ _).mpr hm), if_pos hm]
  · rw [if_neg (fun hb => hm ((contains_iff _ _).mp hb)), if_neg hm]

theorem buildBases_eq (P : List String) :
    buildBases P = (specPakKeys P).map (fun k => (k, specUnit P k)) := by
  induction P using List.reverseRecOn with
  | nil => rfl
  | append_singleton P p ih =>
    have h1 : buildBases (P ++ [p]) = pakRecord (buildBases P) p := by
      unfold buildBases
      rw [List.foldl_append]
      rfl
    rw [h1, ih]
    simp only [pakRecord]
    by_cases hmem : pakBaseKey p ∈ specPakKeys P
    · have hhk : hasKey ((specPakKeys P).map (fun k => (k, specUnit P k)))
          (pakBaseKey p) = true := by
        rw [hasKey_iff, List.map_map]
        simpa using hmem
      rw [if_pos hhk, specPakKeys_append, if_pos hmem, List.map_map]
      apply List.map_congr_left
      intro k hk
      by_cases hkk : k = pakBaseKey p
      · subst hkk
        simp [specUnit_append]
      · have hkk2 : ¬(pakBaseKey p = k) := fun he => hkk he.symm
        simp [hkk, specUnit_append, hkk2]
    · have hnot : ¬(hasKey ((specPakKeys P).map (fun k => (k, specUnit P k)))
          (pakBaseKey p) = true) := by
        rw [hasKey_iff, List.map_map]
        simpa using hmem
      rw [if_neg hnot, specPakKeys_append, if_neg hmem, List.map_append,
        List.map_append]
      congr 1
      · rw [List.map_map]
        apply List.map_congr_left
        intro k hk
        have hkk : ¬(k = pakBaseKey p) := fun he => hmem (he ▸ hk)
        have hkk2 : ¬(pakBaseKey p = k) := fun he => hkk he.symm
        simp [hkk, specUnit_append, hkk2]
      · have hp_not : pakBaseKey p ∉ P.map pakBaseKey := fun hin =>
          hmem ((mem_specPakKeys _ _).mpr hin)
        simp [specUnit_append, specUnit_of_not_mem P (pakBaseKey p) hp_not]

theorem find_pak_sets_members_eq_spec (ms : List (String × Bool)) :
    find_pak_sets_members ms = specPakSets ms := by
  have h1 : ms.foldl (pakStep (detectSingleFolder ms)) [] =
      buildBases (pakPaths ms) := by
    rw [foldl_pakStep_eq]
    rfl
  simp only [find_pak_sets_members, specPakSets]
  rw [h1, buildBases_eq, filter_map_general, List.map_map]
  rfl

/-- Claim C1: `find_pak_sets_in_archive`'s grouping returns exactly one
package unit per grouping key — the lower-cased directory-plus-stem of a
non-directory, non-filtered entry whose lower-cased path ends in a
package-member extension — namely the unit whose three members are the last
recorded paths for that key, keeping only keys for which all three members
are populated, in first-seen key order; the key list is duplicate-free, so at
most one completed unit is ever produced per base, and case variants such as
`Content.UCAS` collapse onto the same key as `content.pak`. -/
theorem find_pak_sets_characterization (ms : List (String × Bool)) :
    find_pak_sets_members ms = specPakSets ms ∧
    (specPakKeys (pakPaths ms)).Nodup ∧
    find_pak_sets_members
        [("content.pak", false), ("content.ucas", false), ("content.utoc", false),
          ("Content.UCAS", false)] =
      [⟨some "content.pak", some "Content.UCAS", some "content.utoc"⟩] :=
  ⟨find_pak_sets_members_eq_spec ms, firstDedup_nodup _, by decide⟩

theorem bool_eq_of_iff {a b : Bool} (h : a = true ↔ b = true) : a = b := by
  cases a <;> cases b <;> simp_all

theorem perm_any_eq {α : Type} (l₁ l₂ : List α) (h : l₁.Perm l₂) (p : α → Bool) :
    l₁.any p = l₂.any p := by
  apply bool_eq_of_iff
  rw [List.any_eq_true, List.any_eq_true]
  constructor
  · rintro ⟨a, ha, hp⟩; exact ⟨a, h.mem_iff.mp ha, hp⟩
  · rintro ⟨a, ha, hp⟩; exact ⟨a, h.mem_iff.mpr ha, hp⟩

theorem perm_all_eq {α : Type} (l₁ l₂ : List α) (h : l₁.Perm l₂) (p : α → Bool) :
    l₁.all p = l₂.all p := by
  apply bool_eq_of_iff
  rw [List.all_eq_true, List.all_eq_true]
  constructor
  · intro ha a hm; exact ha a (h.mem_iff.mpr hm)
  · intro ha a hm; exact ha a (h.mem_iff.mp hm)

theorem detect_perm (ms₁ ms₂ : List (String × Bool)) (h : ms₁.Perm ms₂) :
    detectSingleFolder ms₁ = detectSingleFolder ms₂ := by
  have hflag : (ms₁.foldl detectStep ([], false)).2 =
      (ms₂.foldl detectStep ([], false)).2 := by
    rw [foldl_detectStep_flag, foldl_detectStep_flag, perm_any_eq _ _ h setsFlag]
  have hnd₁ : (ms₁.foldl detectStep ([], false)).1.Nodup :=
    foldl_detectStep_nodup _ _ List.nodup_nil
  have hnd₂ : (ms₂.foldl detectStep ([], false)).1.Nodup :=
    foldl_detectStep_nodup _ _ List.nodup_nil
  have hdirs : (ms₁.foldl detectStep ([], false)).1.Perm
      (ms₂.foldl detectStep ([], false)).1 := by
    rw [List.perm_ext_iff_of_nodup hnd₁ hnd₂]
    intro a
    rw [foldl_detectStep_mem, foldl_detectStep_mem]
    simp only [List.not_mem_nil, false_or]
    constructor
    · rintro ⟨e, he, hc⟩; exact ⟨e, h.mem_iff.mp he, hc⟩
    · rintro ⟨e, he, hc⟩; exact ⟨e, h.mem_iff.mpr he, hc⟩
  have hvalid := hdirs.filter (fun d => !(IGNORE_ITEMS.contains (strLower d)))
  have hall : ∀ d, allInside ms₁ d = allInside ms₂ d := by
    intro d
    unfold allInside
    exact perm_all_eq _ _ h _
  rw [detectSingleFolder_eval ms₁, detectSingleFolder_eval ms₂, hflag]
  rcases hv₁ : (ms₁.foldl detectStep ([], false)).1.filter
      (fun d => !(IGNORE_ITEMS.contains (strLower d))) with _ | ⟨d, rest⟩
  · rw [hv₁] at hvalid
    have hv₂ := (hvalid.symm).eq_nil
    rw [hv₂]
  · rw [hv₁] at hvalid
    rcases rest with _ | ⟨d2, rest2⟩
    · have hv₂ := List.perm_singleton.mp hvalid.symm
      rw [hv₂]
      cases hf : (ms₂.foldl detectStep ([], false)).2
      · show (if allInside ms₁ d then some (d ++ "/") else none) =
          (if allInside ms₂ d then some (d ++ "/") else none)
        rw [hall d]
      · rfl
    · have hlen := hvalid.length_eq
      rcases hv₂ : (ms₂.foldl detectStep ([], false)).1.filter
          (fun d => !(IGNORE_ITEMS.contains (strLower d))) with _ | ⟨x, rest3⟩
      · rw [hv₂] at hlen
      · rcases rest3 with _ | ⟨y, r⟩
        · rw [hv₂] at hlen
          simp at hlen
        · cases hf : (ms₂.foldl detectStep ([], false)).2 <;> rfl

theorem pakExtOf_empty : pakExtOf "" = "" := rfl

theorem pakSets_map_key (ms : List (String × Bool)) :
    (find_pak_sets_members ms).map pakSetKeyOf =
      (specPakKeys (pakPaths ms)).filter
        (fun k => pakSetComplete (specUnit (pakPaths ms) k)) := by
  rw [find_pak_sets_members_eq_spec]
  unfold specPakSets
  rw [List.map_map]
  have hpt : ∀ k ∈ (specPakKeys (pakPaths ms)).filter
      (fun k => pakSetComplete (specUnit (pakPaths ms) k)),
      (pakSetKeyOf ∘ specUnit (pakPaths ms)) k = id k := by
    intro k hk
    have hc := (List.mem_filter.mp hk).2
    unfold pakSetComplete at hc
    simp only [Bool.and_eq_true] at hc
    have hc1 : optTruthy (specUnit (pakPaths ms) k).pak = true := hc.1.1
    rcases hm : specMember (pakPaths ms) k ".pak" with _ | p
    · exfalso
      have hpn : (specUnit (pakPaths ms) k).pak = none := hm
      rw [hpn] at hc1
      simp [optTruthy] at hc1
    · obtain ⟨hmem, hpred⟩ := lastWith_some _ _ _ hm
      simp only [Bool.and_eq_true, decide_eq_true_eq] at hpred
      have hps : (specUnit (pakPaths ms) k).pak = some p := hm
      show pakSetKeyOf (specUnit (pakPaths ms) k) = k
      unfold pakSetKeyOf
      rw [hps]
      simpa using hpred.1
  calc ((specPakKeys (pakPaths ms)).filter
          (fun k => pakSetComplete (specUnit (pakPaths ms) k))).map
        (pakSetKeyOf ∘ specUnit (pakPaths ms))
      = ((specPakKeys (pakPaths ms)).filter
          (fun k => pakSetComplete (specUnit (pakPaths ms) k))).map id :=
        List.map_congr_left hpt
    _ = _ := List.map_id _

theorem optTruthy_specMember (P : List String) (k ext : String) (hext : ext ≠ "") :
    optTruthy (specMember P k ext) = true ↔
      ∃ p ∈ P, pakBaseKey p = k ∧ pakExtOf p = ext := by
  constructor
  · intro ht
    rcases hm : specMember P k ext with _ | p
    · rw [hm] at ht; simp [optTruthy] at ht
    · obtain ⟨hmem, hpred⟩ := lastWith_some _ _ _ hm
      simp only [Bool.and_eq_true, decide_eq_true_eq] at hpred
      exact ⟨p, hmem, hpred.1, hpred.2⟩
  · rintro ⟨p, hp, h1, h2⟩
    rcases hm : specMember P k ext with _ | q
    · exfalso
      have hall := (lastWith_eq_none_iff _ _).mp hm p hp
      simp [h1, h2] at hall
    · obtain ⟨hqm, hq⟩ := lastWith_some _ _ _ hm
      simp only [Bool.and_eq_true, decide_eq_true_eq] at hq
      have hqne : q ≠ "" := by
        intro he
        rw [he, pakExtOf_empty] at hq
        exact hext hq.2.symm
      simp [optTruthy, hqne]

theorem pakSetComplete_perm (P₁ P₂ : List String) (hp : P₁.Perm P₂) (k : String) :
    pakSetComplete (specUnit P₁ k) = pakSetComplete (specUnit P₂ k) := by
  have h3 : ∀ ext, ext ≠ "" →
      optTruthy (specMember P₁ k ext) = optTruthy (specMember P₂ k ext) := by
    intro ext hext
    apply bool_eq_of_iff
    rw [optTruthy_specMember _ _ _ hext, optTruthy_specMember _ _ _ hext]
    constructor <;> rintro ⟨p, hp2, h1, h2⟩
    · exact ⟨p, hp.mem_iff.mp hp2, h1, h2⟩
    · exact ⟨p, hp.mem_iff.mpr hp2, h1, h2⟩
  unfold pakSetComplete specUnit
  simp only
  rw [h3 ".pak" (by decide), h3 ".ucas" (by decide), h3 ".utoc" (by decide)]

/-- Claim C5 (amended): permuting the archive entry list leaves the set of
completed grouping keys of `find_pak_sets_in_archive`'s grouping unchanged
(the member paths stored inside a triple may differ when several case- or
spelling-variants of the same member share a key, since the last-recorded
path wins). -/
theorem pak_grouping_perm_invariant (ms₁ ms₂ : List (String × Bool))
    (h : ms₁.Perm ms₂) :
    ((find_pak_sets_members ms₁).map pakSetKeyOf).toFinset =
      ((find_pak_sets_members ms₂).map pakSetKeyOf).toFinset := by
  rw [pakSets_map_key, pakSets_map_key]
  have hdet := detect_perm ms₁ ms₂ h
  have hP : (pakPaths ms₁).Perm (pakPaths ms₂) := by
    unfold pakPaths
    rw [hdet]
    exact (h.filter _).map _
  ext k
  simp only [List.mem_toFinset, List.mem_filter]
  constructor <;> rintro ⟨hm, hc⟩
  · refine ⟨?_, ?_⟩
    · rw [mem_specPakKeys] at hm ⊢
      exact (hP.map pakBaseKey).mem_iff.mp hm
    · rw [← pakSetComplete_perm _ _ hP k]; exact hc
  · refine ⟨?_, ?_⟩
    · rw [mem_specPakKeys] at hm ⊢
      exact (hP.map pakBaseKey).mem_iff.mpr hm
    · rw [pakSetComplete_perm _ _ hP k]; exact hc

/-- Witness for the amended C5: swapping the two case-variant `.pak` entries
changes the stored member path but not the set of completed keys. -/
theorem pak_grouping_perm_invariant_witness :
    ((find_pak_sets_members
        [("a/x.pak", false), ("a/X.pak", false), ("a/x.ucas", false),
          ("a/x.utoc", false)]).map pakSetKeyOf).toFinset =
      ((find_pak_sets_members
        [("a/X.pak", false), ("a/x.pak", false), ("a/x.ucas", false),
          ("a/x.utoc", false)]).map pakSetKeyOf).toFinset :=
  pak_grouping_perm_invariant _ _ (List.Perm.swap _ _ _)

/-- Counterexample for C5 as stated: swapping two case-variants of the same
`.pak` member is a permutation of the entries, yet the resulting sets of
completed triples differ — the stored `.pak` path is whichever variant was
enumerated last. -/
theorem pak_grouping_perm_counterexample :
    List.Perm
      [("a/x.pak", false), ("a/X.pak", false), ("a/x.ucas", false), ("a/x.utoc", false)]
      [("a/X.pak", false), ("a/x.pak", false), ("a/x.ucas", false), ("a/x.utoc", false)] ∧
    (find_pak_sets_members
        [("a/x.pak", false), ("a/X.pak", false), ("a/x.ucas", false),
          ("a/x.utoc", false)]).toFinset ≠
      (find_pak_sets_members
        [("a/X.pak", false), ("a/x.pak", false), ("a/x.ucas", false),
          ("a/x.utoc", false)]).toFinset := by
  constructor
  · exact List.Perm.swap _ _ _
  · decide

/-! ## Load-order reordering (C10) -/

theorem splitSections_eq (all : List String) :
    splitSections all =
      (all.filter (fun p => isDefaultPlugin p),
        all.filter (fun p => !(isDefaultPlugin p))) := by
  have key : ∀ (l : List String) (d c : List String),
      l.foldl (fun st p =>
        if isDefaultPlugin p then (st.1 ++ [p], st.2) else (st.1, st.2 ++ [p]))
        (d, c) =
      (d ++ l.filter (fun p => isDefaultPlugin p),
        c ++ l.filter (fun p => !(isDefaultPlugin p))) := by
    intro l
    induction l with
    | nil => intro d c; simp
    | cons a t ih =>
      intro d c
      rw [List.foldl_cons]
      by_cases ha : isDefaultPlugin a <;> simp [ha, ih]
  unfold splitSections
  rw [key]
  simp

theorem map_getD_range (l : List String) :
    (List.range l.length).map (fun i => l.getD i "") = l := by
  induction l with
  | nil => rfl
  | cons a t ih =>
    rw [List.length_cons, List.range_succ_eq_map, List.map_cons, List.map_map]
    have h2 : (List.range t.length).map ((fun i => (a :: t).getD i "") ∘ Nat.succ) =
        (List.range t.length).map (fun i => t.getD i "") :=
      List.map_congr_left (fun i _ => rfl)
    rw [h2, ih]
    rfl

theorem nodup_lt_perm_range (js : List Nat) (n : Nat) (hlen : js.length = n)
    (hnd : js.Nodup) (hlt : ∀ j ∈ js, j < n) : js.Perm (List.range n) := by
  have hsub : js.toFinset ⊆ Finset.range n := fun j hj =>
    Finset.mem_range.mpr (hlt j (List.mem_toFinset.mp hj))
  have hcard : js.toFinset.card = n := by
    rw [List.toFinset_card_of_nodup hnd, hlen]
  have heq : js.toFinset = Finset.range n :=
    Finset.eq_of_subset_of_card_le hsub (by rw [hcard, Finset.card_range])
  rw [List.perm_ext_iff_of_nodup hnd (List.nodup_range n)]
  intro a
  rw [← List.mem_toFinset, heq, Finset.mem_range, List.mem_range]

theorem nodup_of_dedup_length {α : Type} [DecidableEq α] (l : List α)
    (h : l.dedup.length = l.length) : l.Nodup := by
  have hsub := List.dedup_sublist l
  have heq := hsub.eq_of_length h
  exact heq ▸ List.nodup_dedup l

/-- Claim C10: whenever the pure core of `process_load_order` produces a list
to write, the parsed user numbers are a duplicate-free permutation of
`1..n` (`n` the number of custom plugins), and the written list is exactly
the default section in its original order followed by a permutation of the
custom section — so the written list is a permutation of the original
`plugins.txt` lines, no plugin is dropped, duplicated, or moved across the
default/custom boundary, and any input that is not such a permutation is
rejected and never written. -/
theorem load_order_preserves (all_plugins : List String) (nums : List Nat)
    (out : List String)
    (h : process_load_order_core all_plugins nums = some out) :
    nums.Perm (List.range' 1 (splitSections all_plugins).2.length) ∧
    out.Perm all_plugins ∧
    ∃ sel : List String,
      out = (splitSections all_plugins).1 ++ sel ∧
      sel.Perm (splitSections all_plugins).2 := by
  simp only [process_load_order_core] at h
  by_cases h1 : (splitSections all_plugins).2.isEmpty
  · rw [if_pos h1] at h; simp at h
  rw [if_neg h1] at h
  by_cases h2 : nums.isEmpty
  · rw [if_pos h2] at h; simp at h
  rw [if_neg h2] at h
  by_cases h3 : (nums.map (fun k : Nat => (k : Int) - 1)).length ≠
      (splitSections all_plugins).2.length
  · rw [if_pos h3] at h; simp at h
  rw [if_neg h3] at h
  have hlen : (nums.map (fun k : Nat => (k : Int) - 1)).length =
      (splitSections all_plugins).2.length := not_ne_iff.mp h3
  by_cases h4 : (nums.map (fun k : Nat => (k : Int) - 1)).all
      (fun i => 0 ≤ i && i < ((splitSections all_plugins).2.length : Int))
  · rw [if_neg (by simp [h4])] at h
    by_cases h5 : (nums.map (fun k : Nat => (k : Int) - 1)).dedup.length ≠
        (splitSections all_plugins).2.length
    · rw [if_pos h5] at h; simp at h
    rw [if_neg h5] at h
    have hout : out = (splitSections all_plugins).1 ++
        (nums.map (fun k : Nat => (k : Int) - 1)).map
          (fun i => (splitSections all_plugins).2.getD i.toNat "") :=
      (Option.some_inj.mp h).symm
    have hall : ∀ i ∈ nums.map (fun k : Nat => (k : Int) - 1),
        0 ≤ i ∧ i < ((splitSections all_plugins).2.length : Int) := by
      intro i hi
      have := (List.all_eq_true.mp h4) i hi
      simpa using this
    have hnd : (nums.map (fun k : Nat => (k : Int) - 1)).Nodup := by
      apply nodup_of_dedup_length
      rw [hlen]
      exact not_ne_iff.mp h5
    set n := (splitSections all_plugins).2.length with hn
    set idxs := nums.map (fun k : Nat => (k : Int) - 1) with hidxs
    set js := idxs.map Int.toNat with hjs
    clear_value js idxs n
    have hjs_len : js.length = n := by
      rw [hjs, List.length_map, hlen]
    have hjs_lt : ∀ j ∈ js, j < n := by
      intro j hj
      rw [hjs] at hj
      obtain ⟨i, hi, rfl⟩ := List.mem_map.mp hj
      have := hall i hi
      omega
    have hjs_nd : js.Nodup := by
      rw [hjs]
      apply List.Nodup.map_on
      · intro x hx y hy hxy
        have hx0 := (hall x hx).1
        have hy0 := (hall y hy).1
        omega
      · exact hnd
    have hperm_js : js.Perm (List.range n) :=
      nodup_lt_perm_range js n hjs_len hjs_nd hjs_lt
    have hsel : idxs.map (fun i => (splitSections all_plugins).2.getD i.toNat "") =
        js.map (fun j => (splitSections all_plugins).2.getD j "") := by
      rw [hjs, List.map_map]
      exact List.map_congr_left (fun i _ => rfl)
    have hge : (List.range n).map
        (fun j => (splitSections all_plugins).2.getD j "") =
        (splitSections all_plugins).2 := by
      rw [hn]
      exact map_getD_range _
    have hsel_perm :
        (idxs.map (fun i => (splitSections all_plugins).2.getD i.toNat "")).Perm
          (splitSections all_plugins).2 := by
      have base : (js.map (fun j => (splitSections all_plugins).2.getD j "")).Perm
          ((List.range n).map (fun j => (splitSections all_plugins).2.getD j "")) :=
        hperm_js.map _
      rw [hge] at base
      rw [hsel]
      exact base
    have hk1 : ∀ k ∈ nums, 1 ≤ k := by
      intro k hk
      have hmem : ((k : Int) - 1) ∈ idxs := by
        rw [hidxs]
        exact List.mem_map.mpr ⟨k, hk, rfl⟩
      have := (hall _ hmem).1
      omega
    have hjs_sub : js = nums.map (fun k => k - 1) := by
      rw [hjs, hidxs, List.map_map]
      apply List.map_congr_left
      intro k _
      show ((k : Int) - 1).toNat = k - 1
      omega
    have hnums : nums = js.map (fun j => j + 1) := by
      rw [hjs_sub, List.map_map]
      have hcomp : nums.map ((fun j => j + 1) ∘ (fun k => k - 1)) = nums.map id :=
        List.map_congr_left (fun k hk => by
          have := hk1 k hk
          simp only [Function.comp_apply, id_eq]
          omega)
      rw [hcomp, List.map_id]
    have hre : (List.range n).map (fun j => j + 1) = List.range' 1 n := by
      rw [List.range'_eq_map_range]
      apply List.map_congr_left
      intro i _
      omega
    have hperm_nums : nums.Perm (List.range' 1 n) := by
      rw [hnums, ← hre]
      exact hperm_js.map _
    refine ⟨hperm_nums, ?_, _, hout, hsel_perm⟩
    rw [hout]
    refine (hsel_perm.append_left (splitSections all_plugins).1).trans ?_
    rw [splitSections_eq]
    exact List.filter_append_perm _ all_plugins
  · have hf : (nums.map (fun k : Nat => (k : Int) - 1)).all
        (fun i => 0 ≤ i && i < ((splitSections all_plugins).2.length : Int)) =
        false := Bool.eq_false_iff.mpr h4
    rw [if_pos (by rw [hf]; rfl)] at h
    simp at h

/-- Witness for C10: reversing the two custom plugins after the default
master keeps the default section fixed and permutes the custom section. -/
theorem load_order_preserves_witness :
    List.Perm [2, 1]
      (List.range' 1 (splitSections ["Oblivion.esm", "a.esp", "b.esp"]).2.length) ∧
    List.Perm ["Oblivion.esm", "b.esp", "a.esp"] ["Oblivion.esm", "a.esp", "b.esp"] ∧
    ∃ sel : List String,
      ["Oblivion.esm", "b.esp", "a.esp"] =
        (splitSections ["Oblivion.esm", "a.esp", "b.esp"]).1 ++ sel ∧
      sel.Perm (splitSections ["Oblivion.esm", "a.esp", "b.esp"]).2 :=
  load_order_preserves ["Oblivion.esm", "a.esp", "b.esp"] [2, 1]
    ["Oblivion.esm", "b.esp", "a.esp"] (by decide)
